import Mathlib

/-!
Verification of the contract/ZIP indexing engine (`src/zipports.py`,
class `ContractZipAnalyzer`).

Python dicts are modelled as insertion-ordered association lists
(`dictGet` / `dictSet`), Python sets as duplicate-free lists in insertion
order (`setAdd`), and `defaultdict(set)` access as `ddAdd` / `ddGetItem`.
Machine-level concerns (pandas chunking, Excel serialisation) are outside
the index semantics; the ingested data reaches `process_chunk` as plain
rows, which is what `Row` models.
-/

namespace ZipReport

/-- One validated CSV row as consumed by `process_chunk`: the fields the code
reads via `row[...]` / `row.get(...)`. -/
structure Row where
  contract : String
  zip : String
  state_id : String
  buyer_name : String
  buyer_id : String
  vertical_name : String
  contract_status : String
  deriving DecidableEq

/-- Python `str.strip()`: remove leading and trailing whitespace. -/
def pyStrip (s : String) : String :=
  ⟨(((s.data.dropWhile Char.isWhitespace).reverse).dropWhile Char.isWhitespace).reverse⟩

/-- Lookup `d[k]` on a Python dict modelled as an insertion-ordered
association list (`None` when the key is absent). -/
def dictGet (k : String) : List (String × α) → Option α
  | [] => none
  | p :: t => if p.1 = k then some p.2 else dictGet k t

/-- Assignment `d[k] = v`: update in place when the key is present, append at
the end when absent (Python dicts preserve insertion order). -/
def dictSet (k : String) (v : α) : List (String × α) → List (String × α)
  | [] => [(k, v)]
  | p :: t => if p.1 = k then (k, v) :: t else p :: dictSet k v t

/-- Python `set.add`: no effect when the element is already present. -/
def setAdd (x : String) (s : List String) : List String :=
  if x ∈ s then s else s ++ [x]

/-- `d[k].add x` on a `defaultdict(set)`: `__getitem__` materialises an empty
set for an absent key, then the element is added. -/
def ddAdd (k x : String) (d : List (String × List String)) :
    List (String × List String) :=
  dictSet k (setAdd x ((dictGet k d).getD [])) d

/-- The set stored under `k`, with the `defaultdict(set)` default. -/
def lookupSet (d : List (String × List String)) (k : String) : List String :=
  (dictGet k d).getD []

/-- `d[k]` on a `defaultdict(set)` as an effectful read: an absent key is
inserted with an empty set (the mutation performed by `__getitem__`). -/
def ddGetItem (k : String) (d : List (String × List String)) :
    List String × List (String × List String) :=
  match dictGet k d with
  | some v => (v, d)
  | none => ([], d ++ [(k, [])])

/-- The per-contract record stored in `st.session_state.contract_info`. -/
structure ContractInfo where
  buyer_name : String
  buyer_id : String
  vertical_name : String
  contract_status : String
  zip_states : List (String × String)
  deriving DecidableEq

instance : Inhabited ContractInfo := ⟨⟨"", "", "", "", []⟩⟩

/-- The three session-state maps maintained by `ContractZipAnalyzer`. -/
structure SessionState where
  contract_zip_map : List (String × List String)
  zip_contract_map : List (String × List String)
  contract_info : List (String × ContractInfo)
  deriving DecidableEq

/-- The empty index, as after `__init__` or the `clear()` calls at the start
of `load_main_file`. -/
def emptyState : SessionState := ⟨[], [], []⟩

/-- The `contract_info` record used for the row's contract: the existing one
when the contract was already seen, otherwise a fresh record capturing the
row's buyer/vertical/status metadata (`zipports.py` lines 44-52). -/
def infoBase (st : SessionState) (r : Row) : ContractInfo :=
  match dictGet r.contract st.contract_info with
  | some i => i
  | none =>
    { buyer_name := r.buyer_name, buyer_id := r.buyer_id,
      vertical_name := r.vertical_name,
      contract_status := r.contract_status, zip_states := [] }

/-- The record after line 55: `contract_info[contract]['zip_states'][zip_code]
= state_id`, an unconditional dict assignment. -/
def infoAfter (st : SessionState) (r : Row) : ContractInfo :=
  { infoBase st r with
    zip_states :=
      dictSet (pyStrip r.zip) (pyStrip r.state_id) (infoBase st r).zip_states }

/-- The state updates performed for one valid row
(`zipports.py` lines 40-55). -/
def insertRow (st : SessionState) (r : Row) : SessionState :=
  { contract_zip_map := ddAdd r.contract (pyStrip r.zip) st.contract_zip_map,
    zip_contract_map := ddAdd (pyStrip r.zip) r.contract st.zip_contract_map,
    contract_info := dictSet r.contract (infoAfter st r) st.contract_info }

/-- The body of the row loop in `process_chunk` (`zipports.py` lines 31-55):
strip the ZIP and state id, skip empty/`"nan"` ZIPs, then insert into both
maps, capture contract metadata only on first sighting, and store the state
id for the (contract, ZIP) pair. -/
def processRow (st : SessionState) (r : Row) : SessionState :=
  if pyStrip r.zip = "" ∨ pyStrip r.zip = "nan" then st else insertRow st r

/-- `process_chunk`: fold the row loop over the rows of one chunk. -/
def processChunk (st : SessionState) (rows : List Row) : SessionState :=
  rows.foldl processRow st

/-- `load_main_file` after its destructive reset: process the chunks in
order, starting from cleared maps. (Status filtering and `dropna` only drop
rows, so quantifying over arbitrary chunk lists covers every input.) -/
def loadState (chunks : List (List Row)) : SessionState :=
  chunks.foldl processChunk emptyState

/-! ### The analyzer (`analyze_main_data`) -/

/-- Code-point comparison of character lists; Python's `sorted` compares
`str` values this way. -/
def lexLe : List Char → List Char → Bool
  | [], _ => true
  | _ :: _, [] => false
  | a :: as, b :: bs => if a < b then true else if b < a then false else lexLe as bs

instance decStrOrd : DecidableRel (fun a b : String => lexLe a.data b.data = true) :=
  fun _ _ => instDecidableEqBool _ _

/-- Python `sorted` on a list of strings. -/
def pySorted (l : List String) : List String :=
  List.insertionSort (fun a b : String => lexLe a.data b.data = true) l

/-- `zip_contract_map[zip_code] - {contract}` (lines 134 and 178). -/
def otherContracts (st : SessionState) (contract zip_code : String) : List String :=
  (lookupSet st.zip_contract_map zip_code).filter (fun x => x ≠ contract)

/-- One iteration of the overlap loop (lines 133-136): add the number of
other contracts on this ZIP to the count and union them into the set. -/
def overlapStep (st : SessionState) (contract : String)
    (acc : Nat × List String) (z : String) : Nat × List String :=
  let other := otherContracts st contract z
  (acc.1 + other.length, other.foldl (fun s c => setAdd c s) acc.2)

/-- The overlap loop of `analyze_main_data` (lines 131-136): accumulate the
multiplicity count and the set of overlapping contracts over the
contract's ZIPs. -/
def overlapLoop (st : SessionState) (contract : String) (zips : List String) :
    Nat × List String :=
  zips.foldl (overlapStep st contract) (0, [])

/-- One row of the Contract Summary table (lines 138-147). -/
structure SummaryRow where
  contract : String
  buyer_name : String
  buyer_id : String
  vertical_name : String
  contract_status : String
  total_zips : Nat
  overlap_count : Nat
  unique_overlaps : Nat
  deriving DecidableEq

/-- `summary_data`: one row per contract, in `contract_zip_map` iteration
(= insertion) order (lines 127-147). The direct `contract_info[contract]`
lookup of line 128 cannot fail on states built by `process_chunk`
(see `wf_loadState`); `getD default` renders it total. -/
def summaryData (st : SessionState) : List SummaryRow :=
  st.contract_zip_map.map (fun p =>
    let info := (dictGet p.1 st.contract_info).getD default
    let stats := overlapLoop st p.1 p.2
    { contract := p.1, buyer_name := info.buyer_name, buyer_id := info.buyer_id,
      vertical_name := info.vertical_name,
      contract_status := info.contract_status,
      total_zips := p.2.length, overlap_count := stats.1,
      unique_overlaps := stats.2.length })

/-- The order realised by `sort_values('Total ZIP Codes', ascending=False)`
(line 149) on position-annotated rows: pandas' `nargsort` computes an
ascending argsort and reverses it, and a stable ascending argsort orders
positions lexicographically by (key, original position). numpy's argsort is
stable (insertion sort) below the introsort small-array cutoff of 16, which
covers every array evaluated concretely in this development. -/
def pandasLe (p q : Nat × SummaryRow) : Prop :=
  p.2.total_zips < q.2.total_zips ∨
    (p.2.total_zips = q.2.total_zips ∧ p.1 ≤ q.1)

instance decPandasLe : DecidableRel pandasLe := fun p q => by
  unfold pandasLe
  infer_instance

/-- The sorted summary with original positions attached. -/
def summarySortedEnum (st : SessionState) : List (Nat × SummaryRow) :=
  (List.insertionSort pandasLe (summaryData st).enum).reverse

/-- `summary_df` after the descending sort of line 149. -/
def summarySorted (st : SessionState) : List SummaryRow :=
  (summarySortedEnum st).map Prod.snd

/-- One row of the Detailed Matches table (lines 182-191). -/
structure DetailRow where
  contract : String
  buyer_name : String
  buyer_id : String
  vertical_name : String
  contract_status : String
  state_id : String
  zip : String
  match_str : String
  deriving DecidableEq

/-- `", ".join(names)`. -/
def joinCommaSep : List String → String
  | [] => ""
  | [s] => s
  | s :: rest => s ++ ", " ++ joinCommaSep rest

/-- The detail rows generated for one `contract_zip_map` entry
(the inner loop of lines 174-191). -/
def detailRowsFor (st : SessionState) (p : String × List String) : List DetailRow :=
  let info := (dictGet p.1 st.contract_info).getD default
  (pySorted p.2).map (fun z =>
    let other := pySorted (otherContracts st p.1 z)
    { contract := p.1, buyer_name := info.buyer_name, buyer_id := info.buyer_id,
      vertical_name := info.vertical_name,
      contract_status := info.contract_status,
      state_id := (dictGet z info.zip_states).getD "",
      zip := z,
      match_str := if other.isEmpty then "" else joinCommaSep other })

/-- `detailed_data` (lines 174-191): one row per (contract, ZIP) pair, ZIPs
in ascending sorted order, the match column holding the sorted comma-joined
other contracts (empty string when there are none). -/
def detailRows (st : SessionState) : List DetailRow :=
  st.contract_zip_map.flatMap (detailRowsFor st)

/-- Left-to-right non-overlapping occurrences of the separator `", "` in a
character list; `len(s.split(", ")) = commaSpaceOcc s.data + 1`. -/
def commaSpaceOcc : List Char → Nat
  | [] => 0
  | [_] => 0
  | a :: b :: rest =>
    if a = ',' ∧ b = ' ' then commaSpaceOcc rest + 1
    else commaSpaceOcc (b :: rest)

/-- `len(row['MATCH'].split(", "))` for a non-empty match string. -/
def matchPieces (s : String) : Nat := commaSpaceOcc s.data + 1

/-- The `Counter` of lines 196-200: per contract, the total over its detail
rows of the number of `", "`-separated names in non-empty match strings
(`Counter[k]` is `0` for contracts never incremented). -/
def contractMatchCount (st : SessionState) (c : String) : Nat :=
  ((detailRows st).filter (fun r => r.contract = c)).foldl
    (fun n r => if r.match_str = "" then n else n + matchPieces r.match_str) 0

/-- Whether a character list contains `", "` as a substring (scanned exactly
as `commaSpaceOcc` scans). -/
def hasCommaSpace : List Char → Bool
  | [] => false
  | [_] => false
  | a :: b :: rest => if a = ',' ∧ b = ' ' then true else hasCommaSpace (b :: rest)

/-- Every contract name stored in the ZIP index is non-empty and free of the
join separator `", "`. -/
def GoodNames (st : SessionState) : Prop :=
  ∀ p ∈ st.zip_contract_map, ∀ c ∈ p.2,
    c ≠ "" ∧ hasCommaSpace c.data = false

/-- Line 224: the contracts, in sorted-summary order, whose
`'Unique Contracts Overlapping'` entry is positive. -/
def contractsWithMatches (st : SessionState) : List String :=
  ((summarySorted st).filter (fun r => 0 < r.unique_overlaps)).map
    (fun r => r.contract)

/-- Fuelled helper for `chunkList`; the fuel (initialised with the list
length, which bounds the number of groups) keeps the recursion structural.
The fuel-exhausted case is unreachable for the initial fuel. -/
def chunkListAux (k : Nat) : Nat → List α → List (List α)
  | _, [] => []
  | 0, a :: t => [a :: t]
  | n + 1, a :: t => (a :: t.take k) :: chunkListAux k n (t.drop k)

/-- The `range(0, len(l), size)` batching of lines 227-229 with group size
`k + 1`: consecutive groups (the code uses `batch_size = 20`). -/
def chunkList (k : Nat) (l : List α) : List (List α) :=
  chunkListAux k l.length l

/-- The batched export partition with the configured `batch_size = 20`. -/
def exportBatches (st : SessionState) : List (List String) :=
  chunkList 19 (contractsWithMatches st)

/-! ### The query matcher (`analyze_new_zips`) -/

/-- `pandas.unique` over the trimmed string forms (line 278):
first-occurrence-ordered deduplication. -/
def dedupFirst (l : List String) : List String :=
  l.foldl (fun acc x => setAdd x acc) []

/-- One row of the ZIP Matches table (lines 288-297). -/
structure MatchRow where
  new_zip : String
  state_id : String
  contract : String
  buyer_name : String
  buyer_id : String
  vertical_name : String
  contract_status : String
  total_zips : Nat
  deriving DecidableEq

/-- One ZIP-match row (lines 288-297). -/
def matchRowFor (st : SessionState) (z c : String) : MatchRow :=
  let info := (dictGet c st.contract_info).getD default
  { new_zip := z, state_id := (dictGet z info.zip_states).getD "",
    contract := c, buyer_name := info.buyer_name,
    buyer_id := info.buyer_id, vertical_name := info.vertical_name,
    contract_status := info.contract_status,
    total_zips := (lookupSet st.contract_zip_map c).length }

/-- The rows produced for one input ZIP (lines 281-297): none when the ZIP
is not a key of `zip_contract_map`, otherwise one per stored contract. -/
def matchRowsFor (st : SessionState) (z : String) : List MatchRow :=
  match dictGet z st.zip_contract_map with
  | none => []
  | some contracts => contracts.map (matchRowFor st z)

/-- The match loop of `analyze_new_zips` (lines 280-297): for each unique
trimmed input ZIP present in `zip_contract_map`, one row per referencing
contract, carrying the per-pair state id and the contract's ZIP count. -/
def matchResults (st : SessionState) (input : List String) : List MatchRow :=
  (dedupFirst (input.map pyStrip)).flatMap (matchRowsFor st)

/-- The reporting outcome of `analyze_new_zips` (lines 299-351): the
`new_zip_matches` artifact is produced exactly when `match_results` is
non-empty; otherwise "No matches found" is logged. -/
structure NewZipReport where
  artifact : Option (List MatchRow)
  no_matches_logged : Bool
  deriving DecidableEq

def analyzeNewZips (st : SessionState) (input : List String) : NewZipReport :=
  let rows := matchResults st input
  if rows.isEmpty then ⟨none, true⟩ else ⟨some rows, false⟩

/-- The session-map effect of one iteration of the match loop: the
`defaultdict.__getitem__` of line 282 (guarded by the `in` test of line 281)
and, for every contract in the set, the one of line 296. All other map
accesses in the loop are reads of plain dicts. -/
def queryStep (st : SessionState) (z : String) : SessionState :=
  if (dictGet z st.zip_contract_map).isSome then
    let pr := ddGetItem z st.zip_contract_map
    let st1 : SessionState := { st with zip_contract_map := pr.2 }
    pr.1.foldl
      (fun st c =>
        { st with contract_zip_map := (ddGetItem c st.contract_zip_map).2 })
      st1
  else st

/-- The mutations `analyze_new_zips` performs on the session maps. -/
def analyzeNewZipsState (st : SessionState) (input : List String) : SessionState :=
  (dedupFirst (input.map pyStrip)).foldl queryStep st

/-! ### Concrete scenario states -/

/-- A scenario row; only the contract, ZIP and state id fields vary. -/
def mkRow (c z s : String) : Row := ⟨c, z, s, "", "", "", ""⟩

/-- Scenario A of the spec: ingested rows (C1, ZIP1), (C2, ZIP1), (C3, ZIP2). -/
def scenarioA : SessionState :=
  loadState [[mkRow "C1" "ZIP1" "", mkRow "C2" "ZIP1" "", mkRow "C3" "ZIP2" ""]]

/-! ### Association-list and set lemmas -/

theorem dictGet_dictSet_self (k : String) (v : α) (d : List (String × α)) :
    dictGet k (dictSet k v d) = some v := by
  induction d with
  | nil => simp [dictGet, dictSet]
  | cons p t ih =>
    by_cases h : p.1 = k
    · simp [dictGet, dictSet, h]
    · simp [dictGet, dictSet, h, ih]

theorem dictGet_dictSet_ne {k' k : String} (h : k' ≠ k) (v : α)
    (d : List (String × α)) : dictGet k' (dictSet k v d) = dictGet k' d := by
  induction d with
  | nil => simp [dictGet, dictSet, Ne.symm h]
  | cons p t ih =>
    by_cases hp : p.1 = k
    · subst hp
      simp [dictGet, dictSet, Ne.symm h]
    · simp only [dictSet, hp, if_false]
      by_cases hp' : p.1 = k'
      · simp [dictGet, hp']
      · simp [dictGet, hp', ih]

theorem isSome_dictGet_iff_mem (k : String) (d : List (String × α)) :
    (dictGet k d).isSome ↔ k ∈ d.map Prod.fst := by
  induction d with
  | nil => simp [dictGet]
  | cons p t ih =>
    by_cases h : p.1 = k
    · simp [dictGet, h]
    · simp [dictGet, h, ih, Ne.symm h]

theorem map_fst_dictSet (k : String) (v : α) (d : List (String × α)) :
    (dictSet k v d).map Prod.fst =
      if (dictGet k d).isSome then d.map Prod.fst else d.map Prod.fst ++ [k] := by
  induction d with
  | nil => simp [dictGet, dictSet]
  | cons p t ih =>
    by_cases h : p.1 = k
    · simp [dictGet, dictSet, h]
    · simp only [dictSet, dictGet, h, if_false, List.map_cons]
      rw [ih]
      by_cases h' : (dictGet k t).isSome <;> simp [h']

theorem dictGet_of_mem {d : List (String × α)} (hk : (d.map Prod.fst).Nodup)
    {p : String × α} (hp : p ∈ d) : dictGet p.1 d = some p.2 := by
  induction d with
  | nil => cases hp
  | cons q t ih =>
    rcases List.mem_cons.mp hp with h | h
    · subst h
      simp [dictGet]
    · have hne : q.1 ≠ p.1 := by
        intro he
        have : p.1 ∈ t.map Prod.fst := List.mem_map_of_mem Prod.fst h
        rw [← he] at this
        exact (List.nodup_cons.mp hk).1 this
      simp only [dictGet, hne, if_false]
      exact ih (List.nodup_cons.mp hk).2 h

theorem mem_of_dictGet {d : List (String × α)} {k : String} {v : α}
    (h : dictGet k d = some v) : (k, v) ∈ d := by
  induction d with
  | nil => simp [dictGet] at h
  | cons p t ih =>
    by_cases hp : p.1 = k
    · simp only [dictGet, hp, if_true, Option.some.injEq] at h
      subst h
      rw [← hp]
      exact List.mem_cons_self _ _
    · simp only [dictGet, hp, if_false] at h
      exact List.mem_cons_of_mem _ (ih h)

theorem mem_setAdd {y x : String} {s : List String} :
    y ∈ setAdd x s ↔ y = x ∨ y ∈ s := by
  unfold setAdd
  by_cases h : x ∈ s
  · simp only [h, if_true]
    constructor
    · exact Or.inr
    · rintro (rfl | hy)
      · exact h
      · exact hy
  · simp [h, or_comm]

theorem nodup_setAdd {s : List String} (hs : s.Nodup) (x : String) :
    (setAdd x s).Nodup := by
  unfold setAdd
  by_cases h : x ∈ s
  · simpa [h]
  · simp [h, hs, List.nodup_append, List.disjoint_singleton]

theorem setAdd_ne_nil (x : String) (s : List String) : setAdd x s ≠ [] := by
  unfold setAdd
  by_cases h : x ∈ s
  · simp only [h, if_true]
    intro he
    rw [he] at h
    cases h
  · simp [h]

theorem lookupSet_ddAdd (k x : String) (d : List (String × List String))
    (k' : String) :
    lookupSet (ddAdd k x d) k' =
      if k' = k then setAdd x (lookupSet d k) else lookupSet d k' := by
  unfold ddAdd lookupSet
  by_cases h : k' = k
  · subst h
    simp [dictGet_dictSet_self]
  · simp [h, dictGet_dictSet_ne h]

theorem mem_lookupSet_ddAdd {c k x k' : String} {d : List (String × List String)} :
    c ∈ lookupSet (ddAdd k x d) k' ↔ (k' = k ∧ c = x) ∨ c ∈ lookupSet d k' := by
  rw [lookupSet_ddAdd]
  by_cases h : k' = k
  · subst h
    simp [mem_setAdd]
  · simp [h]

theorem isSome_dictGet_dictSet (k k' : String) (v : α) (d : List (String × α)) :
    (dictGet k (dictSet k' v d)).isSome ↔ k = k' ∨ (dictGet k d).isSome := by
  by_cases h : k = k'
  · subst h
    simp [dictGet_dictSet_self]
  · simp [dictGet_dictSet_ne h, h]

/-! ### Well-formedness invariant of the session state -/

/-- Invariant maintained by `process_chunk` over the three session maps:
no duplicate keys, set values are duplicate-free and non-empty, the two maps
are bidirectionally consistent, every indexed contract has a metadata record,
and every ZIP of a contract has a state entry in that record. -/
structure WF (st : SessionState) : Prop where
  czm_keys : (st.contract_zip_map.map Prod.fst).Nodup
  zcm_keys : (st.zip_contract_map.map Prod.fst).Nodup
  czm_vals : ∀ c, (lookupSet st.contract_zip_map c).Nodup
  zcm_vals : ∀ z, (lookupSet st.zip_contract_map z).Nodup
  czm_ne : ∀ c, (dictGet c st.contract_zip_map).isSome →
    lookupSet st.contract_zip_map c ≠ []
  zcm_ne : ∀ z, (dictGet z st.zip_contract_map).isSome →
    lookupSet st.zip_contract_map z ≠ []
  bicons : ∀ c z, c ∈ lookupSet st.zip_contract_map z ↔
    z ∈ lookupSet st.contract_zip_map c
  info_keys : ∀ c, (dictGet c st.contract_zip_map).isSome →
    (dictGet c st.contract_info).isSome
  info_states : ∀ c i, dictGet c st.contract_info = some i →
    ∀ z ∈ lookupSet st.contract_zip_map c, (dictGet z i.zip_states).isSome

theorem wf_emptyState : WF emptyState := by
  constructor <;> simp [emptyState, lookupSet, dictGet]

theorem nodup_keys_dictSet {d : List (String × α)} (hd : (d.map Prod.fst).Nodup)
    (k : String) (v : α) : ((dictSet k v d).map Prod.fst).Nodup := by
  rw [map_fst_dictSet]
  by_cases h : (dictGet k d).isSome
  · simpa [h]
  · have hk : k ∉ d.map Prod.fst := fun hm => h ((isSome_dictGet_iff_mem k d).mpr hm)
    simp [h, List.nodup_append, List.disjoint_singleton, hd, hk]

theorem nodup_lookupSet_ddAdd {d : List (String × List String)}
    (hd : ∀ c, (lookupSet d c).Nodup) (k x c : String) :
    (lookupSet (ddAdd k x d) c).Nodup := by
  rw [lookupSet_ddAdd]
  by_cases h : c = k
  · simp only [h, if_true]
    exact nodup_setAdd (hd k) x
  · simpa [h] using hd c

theorem ne_lookupSet_ddAdd {d : List (String × List String)}
    (hd : ∀ c, (dictGet c d).isSome → lookupSet d c ≠ []) (k x c : String)
    (hc : (dictGet c (ddAdd k x d)).isSome) : lookupSet (ddAdd k x d) c ≠ [] := by
  rw [lookupSet_ddAdd]
  by_cases h : c = k
  · simp only [h, if_true]
    exact setAdd_ne_nil x _
  · have := (isSome_dictGet_dictSet c k _ d).mp hc
    rcases this with h' | h'
    · exact absurd h' h
    · simpa [h] using hd c h'

theorem wf_insertRow {st : SessionState} (hw : WF st) (r : Row) :
    WF (insertRow st r) := by
  refine ⟨?_, ?_, ?_, ?_, ?_, ?_, ?_, ?_, ?_⟩
  · exact nodup_keys_dictSet hw.czm_keys _ _
  · exact nodup_keys_dictSet hw.zcm_keys _ _
  · exact fun c => nodup_lookupSet_ddAdd hw.czm_vals _ _ c
  · exact fun z => nodup_lookupSet_ddAdd hw.zcm_vals _ _ z
  · exact fun c hc => ne_lookupSet_ddAdd hw.czm_ne _ _ c hc
  · exact fun z hz => ne_lookupSet_ddAdd hw.zcm_ne _ _ z hz
  · intro c z
    show c ∈ lookupSet (ddAdd (pyStrip r.zip) r.contract st.zip_contract_map) z ↔
      z ∈ lookupSet (ddAdd r.contract (pyStrip r.zip) st.contract_zip_map) c
    rw [mem_lookupSet_ddAdd, mem_lookupSet_ddAdd, hw.bicons c z]
    tauto
  · intro c hc
    show (dictGet c (dictSet r.contract (infoAfter st r) st.contract_info)).isSome
    have hc' := (isSome_dictGet_dictSet c r.contract _ _).mp hc
    rw [isSome_dictGet_dictSet]
    rcases hc' with h | h
    · exact Or.inl h
    · exact Or.inr (hw.info_keys c h)
  · intro c i hi z hz
    simp only [insertRow] at hi hz
    rcases mem_lookupSet_ddAdd.mp hz with ⟨hck, rfl⟩ | hz'
    · rw [hck, dictGet_dictSet_self] at hi
      injection hi with hi
      subst hi
      simp [infoAfter, dictGet_dictSet_self]
    · by_cases h : c = r.contract
      · rw [h, dictGet_dictSet_self] at hi
        injection hi with hi
        subst hi
        unfold infoAfter
        rw [isSome_dictGet_dictSet]
        refine Or.inr ?_
        rcases hb : dictGet r.contract st.contract_info with _ | i₀
        · exfalso
          rcases hg : dictGet r.contract st.contract_zip_map with _ | zs
          · rw [h, lookupSet, hg] at hz'
            cases hz'
          · have hs : (dictGet r.contract st.contract_zip_map).isSome := by
              rw [hg]
              rfl
            have hik := hw.info_keys r.contract hs
            rw [hb] at hik
            simp at hik
        · have hbe : infoBase st r = i₀ := by
            unfold infoBase
            rw [hb]
          rw [hbe]
          exact hw.info_states r.contract i₀ hb z (h ▸ hz')
      · rw [dictGet_dictSet_ne h] at hi
        exact hw.info_states c i hi z hz'

theorem wf_processRow {st : SessionState} (hw : WF st) (r : Row) :
    WF (processRow st r) := by
  unfold processRow
  by_cases hv : pyStrip r.zip = "" ∨ pyStrip r.zip = "nan"
  · simpa [hv]
  · simpa [hv] using wf_insertRow hw r

theorem wf_processChunk {st : SessionState} (hw : WF st) (rows : List Row) :
    WF (processChunk st rows) := by
  induction rows generalizing st with
  | nil => exact hw
  | cons r t ih => exact ih (wf_processRow hw r)

theorem wf_foldl_chunks {st : SessionState} (hw : WF st)
    (chunks : List (List Row)) : WF (chunks.foldl processChunk st) := by
  induction chunks generalizing st with
  | nil => exact hw
  | cons ch t ih => exact ih (wf_processChunk hw ch)

theorem wf_loadState (chunks : List (List Row)) : WF (loadState chunks) :=
  wf_foldl_chunks wf_emptyState chunks

/-! ### Idempotence of re-ingesting a row -/

theorem dictSet_dictSet_self (k : String) (v w : α) (d : List (String × α)) :
    dictSet k v (dictSet k w d) = dictSet k v d := by
  induction d with
  | nil => simp [dictSet]
  | cons p t ih =>
    by_cases h : p.1 = k
    · simp [dictSet, h]
    · simp [dictSet, h, ih]

theorem setAdd_setAdd (x : String) (s : List String) :
    setAdd x (setAdd x s) = setAdd x s := by
  have hx : x ∈ setAdd x s := mem_setAdd.mpr (Or.inl rfl)
  rw [setAdd, if_pos hx]

theorem ddAdd_ddAdd (k x : String) (d : List (String × List String)) :
    ddAdd k x (ddAdd k x d) = ddAdd k x d := by
  unfold ddAdd
  have h1 : (dictGet k (dictSet k (setAdd x ((dictGet k d).getD [])) d)).getD []
      = setAdd x ((dictGet k d).getD []) := by
    rw [dictGet_dictSet_self]
    rfl
  rw [h1, setAdd_setAdd, dictSet_dictSet_self]

theorem infoAfter_insertRow (st : SessionState) (r : Row) :
    infoAfter (insertRow st r) r = infoAfter st r := by
  have h1 : infoBase (insertRow st r) r = infoAfter st r := by
    unfold infoBase insertRow
    rw [dictGet_dictSet_self]
  show infoAfter (insertRow st r) r = infoAfter st r
  unfold infoAfter
  rw [h1]
  unfold infoAfter
  simp [dictSet_dictSet_self]

theorem mem_foldl_setAdd (l : List String) (s₀ : List String) (y : String) :
    y ∈ l.foldl (fun s x => setAdd x s) s₀ ↔ y ∈ s₀ ∨ y ∈ l := by
  induction l generalizing s₀ with
  | nil => simp
  | cons a t ih =>
    rw [List.foldl_cons, ih, mem_setAdd]
    simp only [List.mem_cons]
    tauto

theorem foldl_overlapStep_fst (st : SessionState) (c : String) (zips : List String) :
    ∀ acc, (zips.foldl (overlapStep st c) acc).1 =
      acc.1 + (zips.map (fun z => (otherContracts st c z).length)).sum := by
  induction zips with
  | nil =>
    intro acc
    simp
  | cons z t ih =>
    intro acc
    rw [List.foldl_cons, ih]
    simp only [overlapStep, List.map_cons, List.sum_cons]
    omega

theorem foldl_overlapStep_mem (st : SessionState) (c : String) (zips : List String) :
    ∀ acc y, y ∈ (zips.foldl (overlapStep st c) acc).2 ↔
      y ∈ acc.2 ∨ ∃ z ∈ zips, y ∈ otherContracts st c z := by
  induction zips with
  | nil => simp
  | cons z t ih =>
    intro acc y
    rw [List.foldl_cons, ih]
    simp only [overlapStep]
    rw [mem_foldl_setAdd]
    simp only [List.mem_cons]
    constructor
    · rintro ((h | h) | ⟨z', hz', h⟩)
      · exact Or.inl h
      · exact Or.inr ⟨z, Or.inl rfl, h⟩
      · exact Or.inr ⟨z', Or.inr hz', h⟩
    · rintro (h | ⟨z', (rfl | hz'), h⟩)
      · exact Or.inl (Or.inl h)
      · exact Or.inl (Or.inr h)
      · exact Or.inr ⟨z', hz', h⟩

theorem overlapLoop_fst (st : SessionState) (c : String) (zips : List String) :
    (overlapLoop st c zips).1 =
      (zips.map (fun z => (otherContracts st c z).length)).sum := by
  unfold overlapLoop
  rw [foldl_overlapStep_fst]
  simp

theorem overlapLoop_mem (st : SessionState) (c : String) (zips : List String)
    (y : String) : y ∈ (overlapLoop st c zips).2 ↔
      ∃ z ∈ zips, y ∈ otherContracts st c z := by
  unfold overlapLoop
  rw [foldl_overlapStep_mem]
  simp

theorem processRow_processRow (st : SessionState) (r : Row) :
    processRow (processRow st r) r = processRow st r := by
  unfold processRow
  by_cases hv : pyStrip r.zip = "" ∨ pyStrip r.zip = "nan"
  · simp [hv]
  · simp only [hv, if_false]
    show insertRow (insertRow st r) r = insertRow st r
    conv_lhs => rw [insertRow]
    rw [infoAfter_insertRow]
    simp only [insertRow]
    congr 1
    · exact ddAdd_ddAdd _ _ _
    · exact ddAdd_ddAdd _ _ _
    · exact dictSet_dictSet_self _ _ _ _

/-! ### Claim C1 -/

/-- C1: after `load_main_file` completes on any input, a contract `c` lies
in `zip_contract_map[z]` exactly when `z` lies in `contract_zip_map[c]`,
and the same holds again after any further chunk processed by
`process_chunk` (every per-chunk intermediate state is `loadState` of a
prefix of the chunk list, so the first conjunct covers all of them). -/
theorem C1_bidirectional_consistency (chunks : List (List Row))
    (rows : List Row) (c z : String) :
    (c ∈ lookupSet (loadState chunks).zip_contract_map z ↔
      z ∈ lookupSet (loadState chunks).contract_zip_map c) ∧
    (c ∈ lookupSet (processChunk (loadState chunks) rows).zip_contract_map z ↔
      z ∈ lookupSet (processChunk (loadState chunks) rows).contract_zip_map c) :=
  ⟨(wf_loadState chunks).bicons c z,
    (wf_processChunk (wf_loadState chunks) rows).bicons c z⟩

/-! ### Claim C2 -/

/-- C2 is false as stated: for an already-seen (contract, ZIP) pair, a later
row carrying a different state id overwrites the stored state id, because
line 55 (`contract_info[contract]['zip_states'][zip_code] = state_id`) is an
unconditional assignment. Here the pair ("C", "Z") first stores "A" and the
second row changes it to "B". -/
theorem C2_counterexample :
    dictGet "Z" ((dictGet "C"
        (loadState [[mkRow "C" "Z" "A"]]).contract_info).getD default).zip_states
      = some "A" ∧
    dictGet "Z" ((dictGet "C"
        (loadState [[mkRow "C" "Z" "A", mkRow "C" "Z" "B"]]).contract_info).getD
          default).zip_states = some "B" ∧
    some ("A" : String) ≠ some "B" :=
  ⟨by decide, by decide, by decide⟩

/-- C2 (amended): a contract's buyer/vertical/status metadata is captured
only from the first row mentioning the contract and is never altered by
later rows, and re-ingesting an identical row leaves the state unchanged;
the per-(contract, ZIP) state id, however, is overwritten by every row for
that pair, taking the value of the latest row. -/
theorem C2_first_occurrence_amended (st : SessionState) (r : Row)
    (i₀ : ContractInfo) (hprev : dictGet r.contract st.contract_info = some i₀)
    (hvalid : ¬(pyStrip r.zip = "" ∨ pyStrip r.zip = "nan")) :
    (∃ i, dictGet r.contract (processRow st r).contract_info = some i ∧
      i.buyer_name = i₀.buyer_name ∧ i.buyer_id = i₀.buyer_id ∧
      i.vertical_name = i₀.vertical_name ∧
      i.contract_status = i₀.contract_status ∧
      dictGet (pyStrip r.zip) i.zip_states = some (pyStrip r.state_id)) ∧
    processRow (processRow st r) r = processRow st r := by
  refine ⟨⟨infoAfter st r, ?_, ?_, ?_, ?_, ?_, ?_⟩, processRow_processRow st r⟩
  · show dictGet r.contract (processRow st r).contract_info = some (infoAfter st r)
    unfold processRow
    rw [if_neg hvalid]
    exact dictGet_dictSet_self _ _ _
  · simp [infoAfter, infoBase, hprev]
  · simp [infoAfter, infoBase, hprev]
  · simp [infoAfter, infoBase, hprev]
  · simp [infoAfter, infoBase, hprev]
  · simp [infoAfter, dictGet_dictSet_self]

theorem C2_amended_witness :
    (∃ i, dictGet "C"
        (processRow (loadState [[mkRow "C" "Z" "A"]]) (mkRow "C" "Z" "B")).contract_info
          = some i ∧
      i.buyer_name = "" ∧ i.buyer_id = "" ∧ i.vertical_name = "" ∧
      i.contract_status = "" ∧ dictGet "Z" i.zip_states = some "B") ∧
    processRow (processRow (loadState [[mkRow "C" "Z" "A"]]) (mkRow "C" "Z" "B"))
        (mkRow "C" "Z" "B")
      = processRow (loadState [[mkRow "C" "Z" "A"]]) (mkRow "C" "Z" "B") :=
  C2_first_occurrence_amended (loadState [[mkRow "C" "Z" "A"]]) (mkRow "C" "Z" "B")
    ⟨"", "", "", "", [("Z", "A")]⟩ (by decide) (by decide)

/-! ### Claim C3 -/

/-- C3: the analyzer's overlap count is the multiplicity-counted sum over
the contract's ZIPs of the other contracts sharing each ZIP, and its overlap
set is the union of those sets; on Scenario A the counts are 1, 1, 0 and the
contracts-with-overlap set is exactly the set containing C1 and C2. -/
theorem C3_overlap_statistics (st : SessionState) (c : String)
    (zips : List String) :
    ((overlapLoop st c zips).1 =
      (zips.map (fun z => (otherContracts st c z).length)).sum) ∧
    (∀ x, x ∈ (overlapLoop st c zips).2 ↔ ∃ z ∈ zips, x ∈ otherContracts st c z) ∧
    ((summaryData scenarioA).map (fun r => (r.contract, r.overlap_count)) =
      [("C1", 1), ("C2", 1), ("C3", 0)]) ∧
    (∀ d, d ∈ contractsWithMatches scenarioA ↔ d = "C1" ∨ d = "C2") := by
  refine ⟨overlapLoop_fst st c zips, fun x => overlapLoop_mem st c zips x,
    by decide, ?_⟩
  intro d
  rw [show contractsWithMatches scenarioA = ["C2", "C1"] from by decide]
  simp only [List.mem_cons, List.not_mem_nil, or_false]
  tauto

/-! ### The pandas sort model -/

instance : IsTotal (Nat × SummaryRow) pandasLe :=
  ⟨by
    intro a b
    unfold pandasLe
    omega⟩

instance : IsTrans (Nat × SummaryRow) pandasLe :=
  ⟨by
    intro a b c hab hbc
    unfold pandasLe at hab hbc ⊢
    omega⟩

theorem summarySortedEnum_pairwise (st : SessionState) :
    (summarySortedEnum st).Pairwise (fun p q => pandasLe q p) := by
  unfold summarySortedEnum
  rw [List.pairwise_reverse]
  exact List.sorted_insertionSort pandasLe _

theorem summarySortedEnum_perm (st : SessionState) :
    (summarySortedEnum st).Perm (summaryData st).enum :=
  (List.reverse_perm _).trans (List.perm_insertionSort _ _)

theorem summarySorted_perm (st : SessionState) :
    (summarySorted st).Perm (summaryData st) := by
  have h2 := (summarySortedEnum_perm st).map Prod.snd
  rw [List.enum_map_snd] at h2
  exact h2

/-! ### Claim C7 -/

/-- C7 is false as stated: with rows (C1, Z1), (C2, Z2) — both contracts
holding exactly one ZIP — the sorted summary lists C2 before C1, the reverse
of first-seen order, because pandas realises `ascending=False` by reversing
an ascending argsort. -/
theorem C7_counterexample :
    (summaryData (loadState [[mkRow "C1" "Z1" "", mkRow "C2" "Z2" ""]])).map
        (fun r => (r.contract, r.total_zips)) = [("C1", 1), ("C2", 1)] ∧
    (summarySorted (loadState [[mkRow "C1" "Z1" "", mkRow "C2" "Z2" ""]])).map
        (fun r => r.contract) = ["C2", "C1"] ∧
    (["C2", "C1"] : List String) ≠ ["C1", "C2"] :=
  ⟨by decide, by decide, by decide⟩

/-- C7 (amended): the Contract Summary rows are a permutation of the
per-contract summary data sorted in descending order of total ZIP count, and
among contracts with equal total ZIP count the order is the REVERSE of
first-seen (ingestion) order: the sorted position-annotated rows carry
strictly decreasing original positions within every tie group. -/
theorem C7_summary_sort_amended (st : SessionState) :
    (summarySorted st).Perm (summaryData st) ∧
    (summarySorted st).Pairwise (fun a b => b.total_zips ≤ a.total_zips) ∧
    (summarySortedEnum st).Pairwise
      (fun p q => p.2.total_zips = q.2.total_zips → q.1 ≤ p.1) ∧
    (summarySortedEnum st).Perm (summaryData st).enum := by
  refine ⟨summarySorted_perm st, ?_, ?_, summarySortedEnum_perm st⟩
  · show ((summarySortedEnum st).map Prod.snd).Pairwise _
    refine List.Pairwise.map Prod.snd ?_ (summarySortedEnum_pairwise st)
    intro p q h
    unfold pandasLe at h
    omega
  · refine List.Pairwise.imp ?_ (summarySortedEnum_pairwise st)
    intro p q h
    unfold pandasLe at h
    omega

/-! ### Batching lemmas -/

theorem chunkListAux_flatten (k : Nat) : ∀ (n : Nat) (l : List α),
    l.length ≤ n + 1 → (chunkListAux k n l).flatten = l := by
  intro n
  induction n with
  | zero =>
    intro l hl
    match l with
    | [] => simp [chunkListAux]
    | [a] => simp [chunkListAux]
    | a :: b :: t =>
      exfalso
      simp only [List.length_cons] at hl
      omega
  | succ n ih =>
    intro l hl
    cases l with
    | nil => simp [chunkListAux]
    | cons a t =>
      show ((a :: t.take k) :: chunkListAux k n (t.drop k)).flatten = a :: t
      rw [List.flatten_cons, ih (t.drop k) (by
        simp only [List.length_drop, List.length_cons] at hl ⊢
        omega)]
      simp [List.take_append_drop]

theorem chunkList_flatten (k : Nat) (l : List α) : (chunkList k l).flatten = l :=
  chunkListAux_flatten k l.length l (by omega)

theorem chunkListAux_length_le (k : Nat) : ∀ (n : Nat) (l : List α),
    l.length ≤ n + 1 → ∀ b ∈ chunkListAux k n l, b.length ≤ k + 1 := by
  intro n
  induction n with
  | zero =>
    intro l hl b hb
    match l, hb with
    | [], hb => simp [chunkListAux] at hb
    | [a], hb =>
      have hb' : b = [a] := by simpa [chunkListAux] using hb
      subst hb'
      simp only [List.length_cons, List.length_nil]
      omega
    | a :: c :: t, hb =>
      exfalso
      simp only [List.length_cons] at hl
      omega
  | succ n ih =>
    intro l hl b hb
    cases l with
    | nil => simp [chunkListAux] at hb
    | cons a t =>
      have hb' : b ∈ (a :: t.take k) :: chunkListAux k n (t.drop k) := hb
      rcases List.mem_cons.mp hb' with h | h
      · subst h
        have ht := List.length_take_le k t
        simp only [List.length_cons]
        omega
      · exact ih (t.drop k) (by
          simp only [List.length_drop, List.length_cons] at hl ⊢
          omega) b h

theorem chunkList_length_le (k : Nat) (l : List α) (b : List α)
    (hb : b ∈ chunkList k l) : b.length ≤ k + 1 :=
  chunkListAux_length_le k l.length l (by omega) b hb

theorem div_succ_aux (k m : Nat) :
    (m - k + k) / (k + 1) + 1 = (m + 1 + k) / (k + 1) := by
  rcases Nat.le_total k m with h | h
  · rw [Nat.sub_add_cancel h]
    have h2 : m + 1 + k = m + (k + 1) := by omega
    rw [h2, Nat.add_div_right _ (Nat.succ_pos k)]
  · have h1 : m - k = 0 := Nat.sub_eq_zero_of_le h
    have h2 : k / (k + 1) = 0 := Nat.div_eq_of_lt (Nat.lt_succ_self k)
    have h3 : m + 1 + k = m + (k + 1) := by omega
    have h4 : m / (k + 1) = 0 := Nat.div_eq_of_lt (by omega)
    rw [h1, Nat.zero_add, h2, h3, Nat.add_div_right _ (Nat.succ_pos k), h4]

theorem chunkListAux_count (k : Nat) : ∀ (n : Nat) (l : List α),
    l.length ≤ n + 1 → (chunkListAux k n l).length = (l.length + k) / (k + 1) := by
  intro n
  induction n with
  | zero =>
    intro l hl
    match l with
    | [] => simp [chunkListAux, Nat.div_eq_of_lt (Nat.lt_succ_self k)]
    | [a] =>
      show (1 : Nat) = (1 + k) / (k + 1)
      rw [Nat.add_comm 1 k, Nat.div_self (Nat.succ_pos k)]
    | a :: b :: t =>
      exfalso
      simp only [List.length_cons] at hl
      omega
  | succ n ih =>
    intro l hl
    cases l with
    | nil => simp [chunkListAux, Nat.div_eq_of_lt (Nat.lt_succ_self k)]
    | cons a t =>
      show (chunkListAux k n (t.drop k)).length + 1 = ((a :: t).length + k) / (k + 1)
      rw [ih (t.drop k) (by
          simp only [List.length_drop, List.length_cons] at hl ⊢
          omega),
        List.length_drop, div_succ_aux k t.length]
      simp only [List.length_cons]

theorem chunkList_count (k : Nat) (l : List α) :
    (chunkList k l).length = (l.length + k) / (k + 1) :=
  chunkListAux_count k l.length l (by omega)

/-! ### Contracts-with-matches lemmas -/

theorem pos_length_iff_exists {l : List String} : 0 < l.length ↔ ∃ x, x ∈ l := by
  cases l with
  | nil => simp
  | cons a t =>
    constructor
    · exact fun _ => ⟨a, List.mem_cons_self a t⟩
    · exact fun _ => Nat.succ_pos _

theorem overlapLoop_pos_iff (st : SessionState) (c : String) (zips : List String) :
    0 < (overlapLoop st c zips).2.length ↔ 0 < (overlapLoop st c zips).1 := by
  rw [pos_length_iff_exists, overlapLoop_fst]
  constructor
  · rintro ⟨x, hx⟩
    obtain ⟨z, hz, hxz⟩ := (overlapLoop_mem st c zips x).mp hx
    have h2 : (otherContracts st c z).length ∈
        zips.map (fun z => (otherContracts st c z).length) :=
      List.mem_map_of_mem _ hz
    have h3 := List.single_le_sum (fun x _ => Nat.zero_le x) _ h2
    have h1 : 0 < (otherContracts st c z).length :=
      pos_length_iff_exists.mpr ⟨x, hxz⟩
    omega
  · intro h
    by_contra hne
    push_neg at hne
    have hz0 : ∀ t ∈ zips.map (fun z => (otherContracts st c z).length), t = 0 := by
      intro t ht
      obtain ⟨z, hz, rfl⟩ := List.mem_map.mp ht
      by_contra ht0
      obtain ⟨x, hx⟩ := pos_length_iff_exists.mp (Nat.pos_of_ne_zero ht0)
      exact (hne x) ((overlapLoop_mem st c zips x).mpr ⟨z, hz, hx⟩)
    rw [List.sum_eq_zero hz0] at h
    exact Nat.lt_irrefl 0 h

theorem summaryRow_pos_iff {st : SessionState} {r : SummaryRow}
    (hr : r ∈ summaryData st) : 0 < r.unique_overlaps ↔ 0 < r.overlap_count := by
  unfold summaryData at hr
  obtain ⟨p, hp, rfl⟩ := List.mem_map.mp hr
  exact overlapLoop_pos_iff st p.1 p.2

theorem mem_contractsWithMatches (st : SessionState) (c : String) :
    c ∈ contractsWithMatches st ↔
      ∃ r ∈ summaryData st, r.contract = c ∧ 0 < r.overlap_count := by
  unfold contractsWithMatches
  rw [List.mem_map]
  constructor
  · rintro ⟨r, hr, rfl⟩
    rw [List.mem_filter] at hr
    obtain ⟨h1, h2⟩ := hr
    have h1' : r ∈ summaryData st := (summarySorted_perm st).mem_iff.mp h1
    refine ⟨r, h1', rfl, ?_⟩
    rw [← summaryRow_pos_iff h1']
    simpa using h2
  · rintro ⟨r, hr, rfl, hpos⟩
    refine ⟨r, ?_, rfl⟩
    rw [List.mem_filter]
    refine ⟨(summarySorted_perm st).mem_iff.mpr hr, ?_⟩
    simpa using (summaryRow_pos_iff hr).mpr hpos

theorem summaryData_map_contract (st : SessionState) :
    (summaryData st).map (fun r => r.contract) =
      st.contract_zip_map.map Prod.fst := by
  unfold summaryData
  rw [List.map_map]
  rfl

theorem contractsWithMatches_nodup (chunks : List (List Row)) :
    (contractsWithMatches (loadState chunks)).Nodup := by
  have h1 : ((summarySorted (loadState chunks)).map (fun r => r.contract)).Nodup := by
    rw [List.Perm.nodup_iff ((summarySorted_perm _).map (fun r => r.contract)),
      summaryData_map_contract]
    exact (wf_loadState chunks).czm_keys
  have h2 : ((summarySorted (loadState chunks)).filter
      (fun r => 0 < r.unique_overlaps)).Sublist (summarySorted (loadState chunks)) :=
    List.filter_sublist _
  unfold contractsWithMatches
  exact List.Nodup.sublist (h2.map (fun r => r.contract)) h1

/-! ### Claim C5 -/

/-- C5: the export batches partition exactly the contracts with positive
overlap count: their concatenation is the contracts-with-matches list, that
list contains exactly the contracts with `overlap_count > 0` and has no
duplicates (so no contract is in two batches), every batch holds at most 20
contracts, and the batch count is `ceil(n / 20) = (n + 19) / 20`. -/
theorem C5_batch_partition (chunks : List (List Row)) :
    ((exportBatches (loadState chunks)).flatten =
      contractsWithMatches (loadState chunks)) ∧
    (∀ c, c ∈ contractsWithMatches (loadState chunks) ↔
      ∃ r ∈ summaryData (loadState chunks), r.contract = c ∧ 0 < r.overlap_count) ∧
    (contractsWithMatches (loadState chunks)).Nodup ∧
    (∀ b ∈ exportBatches (loadState chunks), b.length ≤ 20) ∧
    (exportBatches (loadState chunks)).length =
      ((contractsWithMatches (loadState chunks)).length + 19) / 20 :=
  ⟨chunkList_flatten 19 _,
    fun c => mem_contractsWithMatches (loadState chunks) c,
    contractsWithMatches_nodup chunks,
    fun b hb => chunkList_length_le 19 _ b hb,
    chunkList_count 19 _⟩

theorem C5_witness : (["C2", "C1"] : List String).length ≤ 20 :=
  (C5_batch_partition
      [[mkRow "C1" "ZIP1" "", mkRow "C2" "ZIP1" "", mkRow "C3" "ZIP2" ""]]).2.2.2.1
    ["C2", "C1"] (by decide)

/-! ### Separator-counting lemmas (the `split(", ")` of lines 196-200) -/

theorem occ_eq_zero_of_not_hasCS : ∀ l : List Char, hasCommaSpace l = false →
    commaSpaceOcc l = 0 := by
  intro l
  induction l with
  | nil => intro _; rfl
  | cons a t ih =>
    intro h
    cases t with
    | nil => rfl
    | cons b t' =>
      simp only [hasCommaSpace] at h
      simp only [commaSpaceOcc]
      by_cases hc : a = ',' ∧ b = ' '
      · rw [if_pos hc] at h
        cases h
      · rw [if_neg hc] at h
        rw [if_neg hc]
        exact ih h

theorem occ_append_sep : ∀ (name : List Char), hasCommaSpace name = false →
    ∀ rest, commaSpaceOcc (name ++ ',' :: ' ' :: rest) = commaSpaceOcc rest + 1 := by
  intro name
  induction name with
  | nil =>
    intro _ rest
    show commaSpaceOcc (',' :: ' ' :: rest) = commaSpaceOcc rest + 1
    simp [commaSpaceOcc]
  | cons a t ih =>
    intro h rest
    cases t with
    | nil =>
      show commaSpaceOcc (a :: ',' :: ' ' :: rest) = commaSpaceOcc rest + 1
      simp [commaSpaceOcc]
    | cons b t' =>
      show commaSpaceOcc (a :: b :: (t' ++ ',' :: ' ' :: rest)) =
        commaSpaceOcc rest + 1
      simp only [hasCommaSpace] at h
      simp only [commaSpaceOcc]
      by_cases hc : a = ',' ∧ b = ' '
      · rw [if_pos hc] at h
        cases h
      · rw [if_neg hc] at h
        rw [if_neg hc]
        exact ih h rest

theorem occ_joinCommaSep : ∀ (names : List String),
    (∀ n ∈ names, hasCommaSpace n.data = false) → names ≠ [] →
    commaSpaceOcc (joinCommaSep names).data = names.length - 1 := by
  intro names
  induction names with
  | nil =>
    intro _ h
    exact absurd rfl h
  | cons s rest ih =>
    intro hg _
    cases rest with
    | nil =>
      show commaSpaceOcc (joinCommaSep [s]).data = 0
      exact occ_eq_zero_of_not_hasCS s.data (hg s (by simp))
    | cons s2 rest' =>
      have hj : joinCommaSep (s :: s2 :: rest') =
          s ++ ", " ++ joinCommaSep (s2 :: rest') := rfl
      show commaSpaceOcc (joinCommaSep (s :: s2 :: rest')).data =
        (s :: s2 :: rest').length - 1
      rw [hj]
      have hdata : (s ++ ", " ++ joinCommaSep (s2 :: rest')).data =
          s.data ++ ',' :: ' ' :: (joinCommaSep (s2 :: rest')).data := by
        simp [String.data_append]
      rw [hdata, occ_append_sep s.data (hg s (by simp)) _,
        ih (fun n hn => hg n (by simp [hn])) (by simp)]
      simp

theorem joinCommaSep_ne_empty : ∀ (names : List String),
    (∀ n ∈ names, n ≠ "") → names ≠ [] → joinCommaSep names ≠ "" := by
  intro names hg hne
  cases names with
  | nil => exact absurd rfl hne
  | cons s rest =>
    cases rest with
    | nil => exact hg s (by simp)
    | cons s2 rest' =>
      intro h
      have h2 : (s ++ ", " ++ joinCommaSep (s2 :: rest')).data = [] :=
        congrArg String.data h
      have h3 : (s ++ ", " ++ joinCommaSep (s2 :: rest')).data =
          s.data ++ ',' :: ' ' :: (joinCommaSep (s2 :: rest')).data := by
        simp [String.data_append]
      rw [h3] at h2
      rcases List.append_eq_nil.mp h2 with ⟨-, h4⟩
      cases h4

theorem matchPieces_join (names : List String)
    (hg : ∀ n ∈ names, n ≠ "" ∧ hasCommaSpace n.data = false)
    (hne : names ≠ []) : matchPieces (joinCommaSep names) = names.length := by
  unfold matchPieces
  rw [occ_joinCommaSep names (fun n hn => (hg n hn).2) hne]
  cases names with
  | nil => exact absurd rfl hne
  | cons a t => simp

/-! ### Detail-row counting lemmas -/

theorem good_of_mem_otherContracts {st : SessionState} (hg : GoodNames st)
    {c z x : String} (hx : x ∈ otherContracts st c z) :
    x ≠ "" ∧ hasCommaSpace x.data = false := by
  unfold otherContracts at hx
  have hx' : x ∈ lookupSet st.zip_contract_map z := List.mem_of_mem_filter hx
  rcases hgz : dictGet z st.zip_contract_map with _ | s
  · rw [lookupSet, hgz] at hx'
    cases hx'
  · rw [lookupSet, hgz] at hx'
    exact hg (z, s) (mem_of_dictGet hgz) x hx'

theorem foldl_matchWeight (l : List DetailRow) : ∀ n : Nat,
    l.foldl (fun n r => if r.match_str = "" then n
        else n + matchPieces r.match_str) n =
      n + (l.map (fun r => if r.match_str = "" then 0
        else matchPieces r.match_str)).sum := by
  induction l with
  | nil =>
    intro n
    simp
  | cons r t ih =>
    intro n
    rw [List.foldl_cons, ih]
    by_cases h : r.match_str = ""
    · simp [h]
    · simp only [h, if_neg]
      simp [h]
      omega

theorem detailRowsFor_weight {st : SessionState} (hg : GoodNames st)
    (p : String × List String) :
    ((detailRowsFor st p).map (fun r => if r.match_str = "" then 0
        else matchPieces r.match_str)).sum =
      ((pySorted p.2).map (fun z => (otherContracts st p.1 z).length)).sum := by
  unfold detailRowsFor
  rw [List.map_map]
  refine congrArg List.sum (List.map_congr_left ?_)
  intro z _
  show (if (if (pySorted (otherContracts st p.1 z)).isEmpty then ""
        else joinCommaSep (pySorted (otherContracts st p.1 z))) = "" then 0
      else matchPieces (if (pySorted (otherContracts st p.1 z)).isEmpty then ""
        else joinCommaSep (pySorted (otherContracts st p.1 z)))) =
    (otherContracts st p.1 z).length
  have hperm : (pySorted (otherContracts st p.1 z)).Perm
      (otherContracts st p.1 z) :=
    List.perm_insertionSort _ _
  by_cases he : (pySorted (otherContracts st p.1 z)).isEmpty
  · have h0 : pySorted (otherContracts st p.1 z) = [] :=
      List.isEmpty_iff.mp he
    have h1 : otherContracts st p.1 z = [] := by
      rw [h0] at hperm
      exact List.perm_nil.mp hperm.symm
    simp [he, h1]
    intro hx
    exact absurd rfl hx
  · have hne : pySorted (otherContracts st p.1 z) ≠ [] := by
      intro h0
      rw [h0] at he
      exact he rfl
    have hgood : ∀ n ∈ pySorted (otherContracts st p.1 z),
        n ≠ "" ∧ hasCommaSpace n.data = false :=
      fun n hn => good_of_mem_otherContracts hg (hperm.mem_iff.mp hn)
    have hjne : joinCommaSep (pySorted (otherContracts st p.1 z)) ≠ "" :=
      joinCommaSep_ne_empty _ (fun n hn => (hgood n hn).1) hne
    rw [if_neg he, if_neg hjne, matchPieces_join _ hgood hne]
    exact hperm.length_eq

theorem mem_detailRowsFor_contract {st : SessionState}
    {p : String × List String} {r : DetailRow}
    (hr : r ∈ detailRowsFor st p) : r.contract = p.1 := by
  unfold detailRowsFor at hr
  obtain ⟨z, _, rfl⟩ := List.mem_map.mp hr
  rfl

theorem filter_contract_flatMap (st : SessionState) (c : String) :
    ∀ l : List (String × List String),
      (l.flatMap (detailRowsFor st)).filter (fun r => r.contract = c) =
        (l.filter (fun p => p.1 = c)).flatMap (detailRowsFor st) := by
  intro l
  induction l with
  | nil => simp
  | cons p t ih =>
    rw [List.flatMap_cons, List.filter_append, ih]
    by_cases hp : p.1 = c
    · have hall : (detailRowsFor st p).filter (fun r => r.contract = c) =
          detailRowsFor st p := by
        rw [List.filter_eq_self]
        intro r hr
        simp [mem_detailRowsFor_contract hr, hp]
      rw [hall, List.filter_cons_of_pos (by simp [hp]), List.flatMap_cons]
    · have hnone : (detailRowsFor st p).filter (fun r => r.contract = c) = [] := by
        rw [List.filter_eq_nil_iff]
        intro r hr
        simp [mem_detailRowsFor_contract hr, hp]
      rw [hnone, List.filter_cons_of_neg (by simp [hp])]
      rfl

theorem filter_key_eq_nil {α : Type} (c : String) (l : List (String × α))
    (hc : c ∉ l.map Prod.fst) : l.filter (fun p => p.1 = c) = [] := by
  rw [List.filter_eq_nil_iff]
  intro p hp
  simp only [decide_eq_true_eq]
  intro h
  exact hc (h ▸ List.mem_map_of_mem Prod.fst hp)

theorem filter_key_of_dictGet {α : Type} (c : String) :
    ∀ (l : List (String × α)), (l.map Prod.fst).Nodup → ∀ v,
      dictGet c l = some v → l.filter (fun p => p.1 = c) = [(c, v)] := by
  intro l
  induction l with
  | nil =>
    intro _ v hv
    simp [dictGet] at hv
  | cons p t ih =>
    intro hnd v hv
    obtain ⟨p1, p2⟩ := p
    obtain ⟨hp, ht⟩ := List.nodup_cons.mp hnd
    by_cases hc : p1 = c
    · subst hc
      have hv' : p2 = v := by
        have : dictGet p1 ((p1, p2) :: t) = some p2 := by
          show (if p1 = p1 then some p2 else dictGet p1 t) = some p2
          rw [if_pos rfl]
        rw [this] at hv
        injection hv
      subst hv'
      rw [List.filter_cons_of_pos (by simp)]
      rw [filter_key_eq_nil p1 t hp]
    · have hv' : dictGet c t = some v := by
        have : dictGet c ((p1, p2) :: t) = dictGet c t := by
          show (if p1 = c then some p2 else dictGet c t) = dictGet c t
          rw [if_neg hc]
        rw [this] at hv
        exact hv
      rw [List.filter_cons_of_neg (by simp [hc]), ih ht v hv']

/-! ### Claim C4 -/

/-- C4 is false as stated: with contracts "X" and "A, B" sharing ZIP "Z1",
the detail row of "X" carries the match string "A, B", which the counting
loop of lines 196-200 splits on ", " into two names, so the Contract Match
Counts value recorded for "X" is 2 while overlap_count("X") is 1. -/
theorem C4_counterexample :
    contractMatchCount
      (loadState [[mkRow "X" "Z1" "", mkRow "A, B" "Z1" ""]]) "X" = 2 ∧
    (summaryData (loadState [[mkRow "X" "Z1" "", mkRow "A, B" "Z1" ""]])).map
      (fun r => (r.contract, r.overlap_count)) = [("X", 1), ("A, B", 1)] ∧
    (2 : Nat) ≠ 1 :=
  ⟨by decide, by decide, by decide⟩

/-- C4 (amended): provided every contract name stored in the index is
non-empty and does not contain the join separator ", ", the value the
Contract Match Counts table records for a contract equals its
overlap_count from the Contract Summary; without that proviso the split-
based recount can overcount (names containing ", ") or undercount (empty
names). -/
theorem C4_match_counts_amended (chunks : List (List Row))
    (hg : GoodNames (loadState chunks)) :
    ∀ r ∈ summaryData (loadState chunks),
      contractMatchCount (loadState chunks) r.contract = r.overlap_count := by
  intro r hr
  unfold summaryData at hr
  obtain ⟨p, hp, rfl⟩ := List.mem_map.mp hr
  show contractMatchCount (loadState chunks) p.1 = (overlapLoop (loadState chunks) p.1 p.2).1
  unfold contractMatchCount detailRows
  rw [filter_contract_flatMap, filter_key_of_dictGet p.1 _
    (wf_loadState chunks).czm_keys p.2
    (dictGet_of_mem (wf_loadState chunks).czm_keys hp),
    List.flatMap_cons, List.flatMap_nil, List.append_nil, foldl_matchWeight,
    Nat.zero_add]
  have hw := detailRowsFor_weight hg (p.1, p.2)
  rw [hw, overlapLoop_fst]
  exact List.Perm.sum_eq ((List.perm_insertionSort _ p.2).map _)

theorem C4_amended_witness :
    contractMatchCount (loadState [[mkRow "C1" "ZIP1" "", mkRow "C2" "ZIP1" ""]])
      "C1" = 1 :=
  C4_match_counts_amended [[mkRow "C1" "ZIP1" "", mkRow "C2" "ZIP1" ""]]
    (by unfold GoodNames; decide) ⟨"C1", "", "", "", "", 1, 1, 1⟩ (by decide)

/-! ### Query-matcher lemmas -/

theorem nodup_foldl_setAdd (l : List String) : ∀ s₀ : List String, s₀.Nodup →
    (l.foldl (fun s x => setAdd x s) s₀).Nodup := by
  induction l with
  | nil => exact fun _ h => h
  | cons a t ih => exact fun s₀ h => ih _ (nodup_setAdd h a)

theorem dedupFirst_nodup (l : List String) : (dedupFirst l).Nodup :=
  nodup_foldl_setAdd l [] List.nodup_nil

theorem mem_dedupFirst (l : List String) (x : String) :
    x ∈ dedupFirst l ↔ x ∈ l := by
  unfold dedupFirst
  rw [mem_foldl_setAdd]
  simp

theorem mem_matchRowsFor {st : SessionState} {z : String} {r : MatchRow}
    (hr : r ∈ matchRowsFor st z) :
    r.new_zip = z ∧ (dictGet z st.zip_contract_map).isSome ∧
      r.contract ∈ lookupSet st.zip_contract_map z ∧
      r.total_zips = (lookupSet st.contract_zip_map r.contract).length ∧
      r.state_id = (dictGet z ((dictGet r.contract
        st.contract_info).getD default).zip_states).getD "" := by
  unfold matchRowsFor at hr
  rcases hg : dictGet z st.zip_contract_map with _ | contracts
  · rw [hg] at hr
    cases hr
  · rw [hg] at hr
    obtain ⟨c, hc, rfl⟩ := List.mem_map.mp hr
    refine ⟨rfl, rfl, ?_, rfl, rfl⟩
    rw [lookupSet, hg]
    exact hc

theorem mem_matchResults {st : SessionState} {input : List String} {r : MatchRow}
    (hr : r ∈ matchResults st input) :
    (dictGet r.new_zip st.zip_contract_map).isSome ∧
      r.contract ∈ lookupSet st.zip_contract_map r.new_zip ∧
      r.total_zips = (lookupSet st.contract_zip_map r.contract).length ∧
      r.state_id = (dictGet r.new_zip ((dictGet r.contract
        st.contract_info).getD default).zip_states).getD "" := by
  unfold matchResults at hr
  obtain ⟨z, _, hr⟩ := List.mem_flatMap.mp hr
  obtain ⟨h1, h2, h3, h4, h5⟩ := mem_matchRowsFor hr
  subst h1
  exact ⟨h2, h3, h4, h5⟩

theorem length_filter_flatMap (f : α → List β) (p : β → Bool) :
    ∀ l : List α, ((l.flatMap f).filter p).length =
      (l.map (fun z => ((f z).filter p).length)).sum := by
  intro l
  induction l with
  | nil => simp
  | cons a t ih => simp [List.flatMap_cons, List.filter_append, ih]

theorem sum_single_nonzero (g : String → Nat) (z : String) :
    ∀ l : List String, l.Nodup → (∀ z' ∈ l, z' ≠ z → g z' = 0) →
      (l.map g).sum = if z ∈ l then g z else 0 := by
  intro l
  induction l with
  | nil => simp
  | cons a t ih =>
    intro hnd hz
    rw [List.map_cons, List.sum_cons, ih (List.nodup_cons.mp hnd).2
      (fun z' hz' h => hz z' (List.mem_cons_of_mem a hz') h)]
    by_cases ha : a = z
    · subst ha
      have hnotin : a ∉ t := (List.nodup_cons.mp hnd).1
      simp [hnotin]
    · have hga : g a = 0 := hz a (List.mem_cons_self a t) ha
      have ha' : ¬(z = a) := fun h => ha h.symm
      simp [List.mem_cons, hga, ha']

theorem countP_eq_mem (c : String) : ∀ l : List String, l.Nodup →
    l.countP (fun x => decide (x = c)) = if c ∈ l then 1 else 0 := by
  intro l
  induction l with
  | nil => simp
  | cons a t ih =>
    intro hnd
    rw [List.countP_cons, ih (List.nodup_cons.mp hnd).2]
    by_cases hac : a = c
    · subst hac
      have hnotin : a ∉ t := (List.nodup_cons.mp hnd).1
      simp [hnotin]
    · have hac' : ¬(c = a) := fun h => hac h.symm
      simp [List.mem_cons, hac, hac']

theorem matchRowsFor_count {st : SessionState} (hw : WF st) (z c z' : String) :
    ((matchRowsFor st z').filter
        (fun r => r.new_zip = z ∧ r.contract = c)).length =
      if z' = z ∧ c ∈ lookupSet st.zip_contract_map z then 1 else 0 := by
  by_cases hz' : z' = z
  · subst hz'
    unfold matchRowsFor
    rcases hg : dictGet z' st.zip_contract_map with _ | contracts
    · rw [lookupSet, hg]
      simp
    · have hnd : contracts.Nodup := by
        have := hw.zcm_vals z'
        rw [lookupSet, hg] at this
        exact this
      rw [lookupSet, hg]
      rw [← List.countP_eq_length_filter, List.countP_map]
      have hfun : ((fun r : MatchRow => decide (r.new_zip = z' ∧ r.contract = c)) ∘
          matchRowFor st z') = fun x => decide (x = c) := by
        funext x
        simp [matchRowFor]
      rw [hfun, countP_eq_mem c contracts hnd]
      simp
  · have hnil : (matchRowsFor st z').filter
        (fun r => r.new_zip = z ∧ r.contract = c) = [] := by
      rw [List.filter_eq_nil_iff]
      intro r hr
      have h1 := (mem_matchRowsFor hr).1
      simp only [decide_eq_true_eq]
      rintro ⟨h2, _⟩
      exact hz' (h1 ▸ h2)
    rw [hnil]
    simp [hz']

theorem matchResults_count (chunks : List (List Row)) (input : List String)
    (z c : String) :
    ((matchResults (loadState chunks) input).filter
        (fun r => r.new_zip = z ∧ r.contract = c)).length =
      if z ∈ dedupFirst (input.map pyStrip) ∧
          c ∈ lookupSet (loadState chunks).zip_contract_map z then 1 else 0 := by
  unfold matchResults
  rw [length_filter_flatMap]
  rw [sum_single_nonzero _ z _ (dedupFirst_nodup _) (fun z' _ h => by
    rw [matchRowsFor_count (wf_loadState chunks) z c z']
    simp [h])]
  rw [matchRowsFor_count (wf_loadState chunks) z c z]
  by_cases h1 : z ∈ dedupFirst (input.map pyStrip) <;>
    by_cases h2 : c ∈ lookupSet (loadState chunks).zip_contract_map z <;>
      simp [h1, h2]

theorem matchRowsFor_eq_nil_iff {st : SessionState} (hw : WF st) (z : String) :
    matchRowsFor st z = [] ↔ dictGet z st.zip_contract_map = none := by
  unfold matchRowsFor
  rcases hg : dictGet z st.zip_contract_map with _ | contracts
  · simp
  · simp only [iff_false, reduceCtorEq]
    intro h
    rw [List.map_eq_nil_iff] at h
    have h1 : lookupSet st.zip_contract_map z ≠ [] :=
      hw.zcm_ne z (by rw [hg]; rfl)
    rw [lookupSet, hg] at h1
    exact h1 h

theorem matchResults_empty_iff (chunks : List (List Row)) (input : List String) :
    matchResults (loadState chunks) input = [] ↔
      ∀ z ∈ dedupFirst (input.map pyStrip),
        dictGet z (loadState chunks).zip_contract_map = none := by
  unfold matchResults
  rw [List.flatMap_eq_nil_iff]
  constructor
  · intro h z hz
    exact (matchRowsFor_eq_nil_iff (wf_loadState chunks) z).mp (h z hz)
  · intro h z hz
    exact (matchRowsFor_eq_nil_iff (wf_loadState chunks) z).mpr (h z hz)

/-! ### Claim C6 -/

/-- C6: every ZIP in the match output is a key of `zip_contract_map`
(match-set soundness), each emitted row carries the referencing contract,
its per-pair state id and its total ZIP count, and for every (ZIP, contract)
pair the output contains exactly one row when the deduplicated trimmed input
contains the ZIP and the contract references it, and no row otherwise. -/
theorem C6_query_match (chunks : List (List Row)) (input : List String) :
    (∀ r ∈ matchResults (loadState chunks) input,
      (dictGet r.new_zip (loadState chunks).zip_contract_map).isSome ∧
      r.contract ∈ lookupSet (loadState chunks).zip_contract_map r.new_zip ∧
      r.total_zips =
        (lookupSet (loadState chunks).contract_zip_map r.contract).length ∧
      r.state_id = (dictGet r.new_zip ((dictGet r.contract
        (loadState chunks).contract_info).getD default).zip_states).getD "") ∧
    (∀ z c, ((matchResults (loadState chunks) input).filter
        (fun r => r.new_zip = z ∧ r.contract = c)).length =
      if z ∈ dedupFirst (input.map pyStrip) ∧
          c ∈ lookupSet (loadState chunks).zip_contract_map z then 1 else 0) :=
  ⟨fun _ hr => mem_matchResults hr, fun z c => matchResults_count chunks input z c⟩

theorem C6_witness :
    (dictGet "ZIP1" (loadState [[mkRow "C1" "ZIP1" "", mkRow "C2" "ZIP1" "",
        mkRow "C3" "ZIP2" ""]]).zip_contract_map).isSome ∧
    "C1" ∈ lookupSet (loadState [[mkRow "C1" "ZIP1" "", mkRow "C2" "ZIP1" "",
        mkRow "C3" "ZIP2" ""]]).zip_contract_map "ZIP1" ∧
    (1 : Nat) = (lookupSet (loadState [[mkRow "C1" "ZIP1" "", mkRow "C2" "ZIP1" "",
        mkRow "C3" "ZIP2" ""]]).contract_zip_map "C1").length ∧
    ("" : String) = (dictGet "ZIP1" ((dictGet "C1" (loadState [[mkRow "C1" "ZIP1" "",
        mkRow "C2" "ZIP1" "", mkRow "C3" "ZIP2" ""]]).contract_info).getD
          default).zip_states).getD "" :=
  (C6_query_match [[mkRow "C1" "ZIP1" "", mkRow "C2" "ZIP1" "", mkRow "C3" "ZIP2" ""]]
      ["ZIP1", "ZIP9"]).1 ⟨"ZIP1", "", "C1", "", "", "", "", 1⟩ (by decide)

/-! ### Claim C8 -/

/-- C8: the `new_zip_matches` artifact is produced exactly when at least one
match row exists; zero rows arise exactly when no deduplicated input ZIP is a
key of the index, and in that case the "No matches found" message is logged
instead of any export. -/
theorem C8_no_matches_reporting (chunks : List (List Row)) (input : List String) :
    ((analyzeNewZips (loadState chunks) input).artifact.isSome ↔
      matchResults (loadState chunks) input ≠ []) ∧
    ((analyzeNewZips (loadState chunks) input).no_matches_logged = true ↔
      matchResults (loadState chunks) input = []) ∧
    (matchResults (loadState chunks) input = [] ↔
      ∀ z ∈ dedupFirst (input.map pyStrip),
        dictGet z (loadState chunks).zip_contract_map = none) := by
  refine ⟨?_, ?_, matchResults_empty_iff chunks input⟩
  · simp only [analyzeNewZips]
    by_cases h : matchResults (loadState chunks) input = [] <;>
      simp [h, List.isEmpty_iff]
  · simp only [analyzeNewZips]
    by_cases h : matchResults (loadState chunks) input = [] <;>
      simp [h, List.isEmpty_iff]

/-! ### Claim C9 -/

theorem foldl_id {α : Type} (g : SessionState → α → SessionState) :
    ∀ (l : List α) (st : SessionState), (∀ c ∈ l, g st c = st) →
      l.foldl g st = st := by
  intro l
  induction l with
  | nil =>
    intro st _
    rfl
  | cons a t ih =>
    intro st h
    rw [List.foldl_cons, h a (List.mem_cons_self a t)]
    exact ih st (fun c hc => h c (List.mem_cons_of_mem a hc))

theorem queryStep_id {st : SessionState} (hw : WF st) (z : String) :
    queryStep st z = st := by
  unfold queryStep
  by_cases h : (dictGet z st.zip_contract_map).isSome
  · rw [if_pos h]
    rcases hg : dictGet z st.zip_contract_map with _ | contracts
    · rw [hg] at h
      simp at h
    · have hdd : ddGetItem z st.zip_contract_map = (contracts, st.zip_contract_map) := by
        unfold ddGetItem
        rw [hg]
      rw [hdd]
      show contracts.foldl _ { st with zip_contract_map := st.zip_contract_map } = st
      have hst1 : { st with zip_contract_map := st.zip_contract_map } = st := rfl
      rw [hst1]
      refine foldl_id _ contracts st ?_
      intro c hc
      have hcz : (dictGet c st.contract_zip_map).isSome := by
        have hmem : c ∈ lookupSet st.zip_contract_map z := by
          rw [lookupSet, hg]
          exact hc
        have hz2 : z ∈ lookupSet st.contract_zip_map c := (hw.bicons c z).mp hmem
        rcases hc2 : dictGet c st.contract_zip_map with _ | zs
        · rw [lookupSet, hc2] at hz2
          cases hz2
        · rfl
      rcases hc2 : dictGet c st.contract_zip_map with _ | zs
      · rw [hc2] at hcz
        simp at hcz
      · have hdd2 : ddGetItem c st.contract_zip_map = (zs, st.contract_zip_map) := by
          unfold ddGetItem
          rw [hc2]
        rw [hdd2]
  · rw [if_neg h]

/-- C9: a call to `analyze_new_zips` leaves `contract_zip_map`,
`zip_contract_map` and `contract_info` unchanged on every state produced by
ingestion: its only potential mutations — the `defaultdict` getitem of line
282 (guarded by the `in` test) and the one of line 296 (whose key always
exists by bidirectional consistency) — never insert a key. -/
theorem C9_query_readonly (chunks : List (List Row)) (input : List String) :
    analyzeNewZipsState (loadState chunks) input = loadState chunks := by
  unfold analyzeNewZipsState
  exact foldl_id queryStep _ (loadState chunks)
    (fun z _ => queryStep_id (wf_loadState chunks) z)

/-! ### Claim C10 -/

/-- C10: after any sequence of processed chunks, every key of
`contract_zip_map` has a `contract_info` record, and every ZIP in its set is
reachable in that record's `zip_states` via `get`; hence the direct
`contract_info[contract]` lookups in `analyze_main_data` and
`analyze_new_zips` never fail. -/
theorem C10_contract_info_total (chunks : List (List Row)) (c : String)
    (hc : (dictGet c (loadState chunks).contract_zip_map).isSome) :
    ∃ i, dictGet c (loadState chunks).contract_info = some i ∧
      ∀ z ∈ lookupSet (loadState chunks).contract_zip_map c,
        (dictGet z i.zip_states).isSome := by
  have hw := wf_loadState chunks
  rcases hs : dictGet c (loadState chunks).contract_info with _ | i
  · have hik := hw.info_keys c hc
    rw [hs] at hik
    simp at hik
  · exact ⟨i, rfl, fun z hz => hw.info_states c i hs z hz⟩

theorem C10_witness :
    ∃ i, dictGet "C1" (loadState [[mkRow "C1" "Z1" "S1"]]).contract_info = some i ∧
      ∀ z ∈ lookupSet (loadState [[mkRow "C1" "Z1" "S1"]]).contract_zip_map "C1",
        (dictGet z i.zip_states).isSome :=
  C10_contract_info_total [[mkRow "C1" "Z1" "S1"]] "C1" (by decide)

end ZipReport
